import Mathlib

/-!
# Verification of `generate_scoreboard.py`

A shallow embedding of the core logic of `generate_scoreboard.py`
(name normalization, roster index building, pick resolution, goal
counting since a cutoff, and scoreboard aggregation), together with
theorems settling the specification claims about that logic.

Machine-level collaborators of the script (HTTP fetching, JSON I/O,
sleeping) are outside the embedded core; the aggregator receives the
roster data and the per-element scoring function as parameters, exactly
as the specification's component contracts describe them.
-/

namespace Scoreboard

/-! ## Python character primitives

`norm` relies on `str.strip`/`str.lower`/`str.split`,
`unicodedata.normalize("NFKD", ·)`, `unicodedata.combining`,
`str.isalnum` and `str.isspace`.  Those primitives are modelled
character-by-character below.  ASCII is covered exactly; beyond ASCII
the model covers a finite repertoire of Latin letters and letterlike
symbols (the tables below, taken from UnicodeData.txt); characters
outside the repertoire are left unmapped by the tables (no
decomposition, no case mapping, not alphanumeric). -/

/-- Python `str.isspace` on the ASCII whitespace characters. -/
def pyIsSpace (c : Char) : Bool :=
  c = ' ' || c = '\t' || c = '\n' || c = '\x0d' || c = '\x0b' || c = '\x0c'

/-- Non-ASCII lowercase mappings (`str.lower`), per UnicodeData.txt.
Uppercase letterlike symbols such as U+2102 DOUBLE-STRUCK CAPITAL C have
no lowercase mapping in UnicodeData.txt and are deliberately absent. -/
def lowerTable : List (Char × Char) :=
  [('À', 'à'), ('Á', 'á'), ('Â', 'â'), ('Ã', 'ã'), ('Ä', 'ä'), ('Å', 'å'),
   ('È', 'è'), ('É', 'é'), ('Ê', 'ê'), ('Ë', 'ë'),
   ('Ì', 'ì'), ('Í', 'í'), ('Î', 'î'), ('Ï', 'ï'),
   ('Ò', 'ò'), ('Ó', 'ó'), ('Ô', 'ô'), ('Õ', 'õ'), ('Ö', 'ö'),
   ('Ù', 'ù'), ('Ú', 'ú'), ('Û', 'û'), ('Ü', 'ü'), ('Ý', 'ý'),
   ('Ñ', 'ñ'), ('Ç', 'ç'), ('Ø', 'ø'), ('Æ', 'æ'), ('Œ', 'œ'),
   ('Ð', 'ð'), ('Þ', 'þ'), ('Ł', 'ł')]

/-- Python `str.lower`, character-wise (ASCII exactly, plus `lowerTable`). -/
def pyLowerChar (c : Char) : Char :=
  if c.isUpper then c.toLower else ((lowerTable.lookup c).getD c)

/-- NFKD decompositions (`unicodedata.normalize("NFKD", ·)`), per
UnicodeData.txt: accented Latin letters decompose into their base letter
followed by a combining mark; the letterlike symbols U+2102/U+2115/U+2124
carry `<font>` compatibility decompositions to plain capital letters. -/
def nfkdTable : List (Char × List Char) :=
  [('à', ['a', '̀']), ('á', ['a', '́']), ('â', ['a', '̂']),
   ('ã', ['a', '̃']), ('ä', ['a', '̈']), ('å', ['a', '̊']),
   ('è', ['e', '̀']), ('é', ['e', '́']), ('ê', ['e', '̂']),
   ('ë', ['e', '̈']),
   ('ì', ['i', '̀']), ('í', ['i', '́']), ('î', ['i', '̂']),
   ('ï', ['i', '̈']),
   ('ò', ['o', '̀']), ('ó', ['o', '́']), ('ô', ['o', '̂']),
   ('õ', ['o', '̃']), ('ö', ['o', '̈']),
   ('ù', ['u', '̀']), ('ú', ['u', '́']), ('û', ['u', '̂']),
   ('ü', ['u', '̈']), ('ý', ['y', '́']), ('ÿ', ['y', '̈']),
   ('ñ', ['n', '̃']), ('ç', ['c', '̧']),
   (' ', [' ']),
   ('ℂ', ['C']), ('ℕ', ['N']), ('ℤ', ['Z'])]

/-- NFKD decomposition of one character (identity off the table). -/
def nfkdChar (c : Char) : List Char := (nfkdTable.lookup c).getD [c]

/-- NFKD decomposition of a character list. -/
def nfkdL : List Char → List Char
  | [] => []
  | c :: cs => nfkdChar c ++ nfkdL cs

/-- Python `unicodedata.combining(ch) != 0` for the marks produced by
`nfkdTable`. -/
def pyCombining (c : Char) : Bool :=
  c = '̀' || c = '́' || c = '̂' || c = '̃' ||
  c = '̈' || c = '̊' || c = '̧'

/-- Python `str.isalnum`, character-wise: ASCII letters and digits plus
the alphabetic characters of the modelled repertoire that carry no
decomposition. -/
def pyIsAlnum (c : Char) : Bool :=
  c.isAlpha || c.isDigit ||
  c = 'ø' || c = 'ß' || c = 'æ' || c = 'œ' || c = 'ð' || c = 'þ' || c = 'ł'

/-- The character filter of `norm`:
`ch.isalnum() or ch.isspace() or ch in "-'"`. -/
def keepChar (c : Char) : Bool :=
  pyIsAlnum c || pyIsSpace c || c = '-' || c = '\''

/-- Python `str.strip()` (default whitespace stripping). -/
def pyStrip (l : List Char) : List Char :=
  ((l.dropWhile pyIsSpace).reverse.dropWhile pyIsSpace).reverse

/-- Python `str.split()` with no separator: split on whitespace runs,
dropping empty fields.  `acc` holds the current in-progress word,
reversed. -/
def wordsAux : List Char → List Char → List (List Char)
  | [], acc => if acc.isEmpty then [] else [acc.reverse]
  | c :: cs, acc =>
    if pyIsSpace c then
      if acc.isEmpty then wordsAux cs [] else acc.reverse :: wordsAux cs []
    else
      wordsAux cs (c :: acc)

/-- Python `s.split()` on a character list. -/
def pyWords (l : List Char) : List (List Char) := wordsAux l []

/-- Python `" ".join(words)`. -/
def joinSpace : List (List Char) → List Char
  | [] => []
  | [w] => w
  | w :: w' :: ws => w ++ ' ' :: joinSpace (w' :: ws)

/-- `norm` from `generate_scoreboard.py`, on a character list:
strip, lower, NFKD-decompose, drop combining marks, keep only
alphanumerics/whitespace/hyphen/apostrophe, collapse whitespace. -/
def normL (l : List Char) : List Char :=
  joinSpace (pyWords
    (((nfkdL ((pyStrip l).map pyLowerChar)).filter
        (fun c => !pyCombining c)).filter keepChar))

/-- `norm(s)` from `generate_scoreboard.py`. -/
def norm (s : String) : String := String.mk (normL s.data)

/-- Python `s.split()` on a string, as strings. -/
def splitWords (s : String) : List String := (pyWords s.data).map String.mk

/-- `tokenize(s)` from `generate_scoreboard.py`:
`[t for t in norm(s).split() if t]`. -/
def tokenize (s : String) : List String :=
  (splitWords (norm s)).filter (fun t => t ≠ "")

example : norm "  João   Pedro " = "joao pedro" := by decide
example : norm "Bruno G." = "bruno g" := by decide
example : tokenize "bruno g" = ["bruno", "g"] := by decide
example : norm "ℂ" = "C" := by decide
example : norm "Gibbs-White" = "gibbs-white" := by decide

/-! ## Timestamps

`parse_iso_z` turns a trailing `"Z"` into `"+00:00"` and then calls
`datetime.fromisoformat(s).astimezone(timezone.utc)`.  An aware datetime
denotes an instant; two aware datetimes compare by instant.  The model
represents the parsed instant by its count of seconds relative to the
Unix epoch and covers the `YYYY-MM-DD{T| }HH:MM:SS±HH:MM` input shape
(fractional seconds never occur in the repository's data; a timestamp
without a UTC offset is interpreted by Python relative to the host's
local timezone and is outside the model, so the model rejects it). -/

/-- Decimal digit value of an ASCII digit character. -/
def digitVal (c : Char) : Nat := c.toNat - 48

/-- Whether `y` is a Gregorian leap year. -/
def isLeap (y : Nat) : Bool := (y % 4 = 0 && y % 100 ≠ 0) || y % 400 = 0

/-- Number of days in month `m` of year `y` (as validated by
`datetime.fromisoformat`). -/
def daysInMonth (y m : Nat) : Nat :=
  if m = 2 then (if isLeap y then 29 else 28)
  else if m = 4 || m = 6 || m = 9 || m = 11 then 30
  else 31

/-- Days from the civil date `y-m-d` to 1970-01-01 (Howard Hinnant's
`days_from_civil` algorithm, on integers with floor division). -/
def days_from_civil (y : Int) (m d : Nat) : Int :=
  let y' : Int := if m ≤ 2 then y - 1 else y
  let era : Int := Int.fdiv y' 400
  let yoe : Int := y' - era * 400
  let mp : Nat := if m > 2 then m - 3 else m + 9
  let doy : Int := ((153 * mp + 2) / 5 + d - 1 : Nat)
  let doe : Int := yoe * 365 + Int.fdiv yoe 4 - Int.fdiv yoe 100 + doy
  era * 146097 + doe - 719468

/-- `datetime.fromisoformat` on `YYYY-MM-DD{T| }HH:MM:SS±HH:MM` followed
by conversion to UTC: the resulting instant in seconds since the Unix
epoch, or `none` where Python raises `ValueError`. -/
def pyFromIsoUTC (l : List Char) : Option Int :=
  match l with
  | [y1, y2, y3, y4, '-', m1, m2, '-', d1, d2, sep,
     h1, h2, ':', n1, n2, ':', s1, s2, sg, o1, o2, ':', p1, p2] =>
    if (sep = 'T' || sep = ' ') && (sg = '+' || sg = '-') &&
       [y1, y2, y3, y4, m1, m2, d1, d2, h1, h2, n1, n2, s1, s2,
        o1, o2, p1, p2].all Char.isDigit then
      let y := 1000 * digitVal y1 + 100 * digitVal y2 + 10 * digitVal y3 + digitVal y4
      let mo := 10 * digitVal m1 + digitVal m2
      let d := 10 * digitVal d1 + digitVal d2
      let h := 10 * digitVal h1 + digitVal h2
      let mi := 10 * digitVal n1 + digitVal n2
      let se := 10 * digitVal s1 + digitVal s2
      let oh := 10 * digitVal o1 + digitVal o2
      let om := 10 * digitVal p1 + digitVal p2
      if 1 ≤ y && 1 ≤ mo && mo ≤ 12 && 1 ≤ d && d ≤ daysInMonth y mo &&
         h ≤ 23 && mi ≤ 59 && se ≤ 59 && oh ≤ 23 && om ≤ 59 then
        let off : Int := (if sg = '-' then -1 else 1) * (oh * 3600 + om * 60)
        some (days_from_civil y mo d * 86400 + h * 3600 + mi * 60 + se - off)
      else none
    else none
  | _ => none

/-- `parse_iso_z(s)` from `generate_scoreboard.py`: replace a trailing
`"Z"` with `"+00:00"`, then parse as an ISO timestamp and convert to
UTC. -/
def parse_iso_z (s : String) : Option Int :=
  let l := s.data
  pyFromIsoUTC (if l.getLast? = some 'Z' then l.dropLast ++ ['+', '0', '0', ':', '0', '0'] else l)

example : parse_iso_z "1970-01-01T00:00:00Z" = some 0 := by decide
example : parse_iso_z "2025-12-25T00:00:00Z" = some 1766620800 := by decide
example : parse_iso_z "2025-12-24T23:00:00Z" = some 1766617200 := by decide
example : parse_iso_z "2025-12-26T12:00:00Z" = some 1766750400 := by decide
example : parse_iso_z "garbage" = none := by decide

/-! ## Data model -/

/-- One record of the provider's `elements` list, with the fields the
script reads (`e.get(...)` returns `None` for an absent field; the
element id is assumed present, as every provider record carries one). -/
structure RawElement where
  id : Int
  first_name : Option String
  second_name : Option String
  web_name : Option String
deriving Repr, DecidableEq

/-- An exact-index candidate: the `{"id": ..., "display": ...}` dict. -/
structure Cand where
  id : Int
  display : String
deriving Repr, DecidableEq

/-- A roster entry with precomputed normalized fields. -/
structure RosterEntry where
  id : Int
  display : String
  n_full : String
  n_web : String
  n_second : String
deriving Repr, DecidableEq

/-- The result dict of `resolve_pick_to_element`: `status` is `"ok"`,
`"ambiguous"` or `"not_found"`; `id` is `None` unless `status` is
`"ok"`; `suggestions` is present only on the ambiguous dicts. -/
structure Resolution where
  status : String
  id : Option Int
  display_name : String
  suggestions : Option (List String)
deriving Repr, DecidableEq

/-- Python `dict.get(k)` on a string-keyed dict modelled as an
association list (keys unique, insertion order preserved). -/
def alookup {α : Type} : List (String × α) → String → Option α
  | [], _ => none
  | (k, v) :: rest, q => if q = k then some v else alookup rest q

/-- `idx.setdefault(nk, []).append(c)`: append `c` to the list stored at
key `k`, creating the key at the end of the dict if absent. -/
def dictAppend (idx : List (String × List Cand)) (k : String) (c : Cand) :
    List (String × List Cand) :=
  match idx with
  | [] => [(k, [c])]
  | (k', l) :: rest =>
    if k' = k then (k', l ++ [c]) :: rest else (k', l) :: dictAppend rest k c

/-- `f"{first} {second}".strip()` for an element. -/
def fullName (e : RawElement) : String :=
  String.mk (pyStrip ((e.first_name.getD "" ++ " " ++ e.second_name.getD "").data))

/-- The element's `web_name` with `or ""` applied. -/
def webName (e : RawElement) : String := e.web_name.getD ""

/-- The element's `second_name` with `or ""` applied. -/
def secondName (e : RawElement) : String := e.second_name.getD ""

/-- `display = full or web or second`: first non-empty name. -/
def displayName (e : RawElement) : String :=
  if fullName e ≠ "" then fullName e
  else if webName e ≠ "" then webName e
  else secondName e

/-- Keep the first occurrence of each string, dropping later duplicates
(the contents of the Python set `{full, web, second}`; the set's
iteration order is unspecified, but every candidate dict a single
element contributes is identical, so the index contents per key do not
depend on that order). -/
def dedupFirst (l : List String) : List String :=
  l.foldl (fun acc x => if x ∈ acc then acc else acc ++ [x]) []

/-- The raw name variants one element is indexed under: the deduplicated
`{full, web, second}`. -/
def rawKeys (e : RawElement) : List String :=
  dedupFirst [fullName e, webName e, secondName e]

/-- The candidate dict an element contributes to the exact index. -/
def candOf (e : RawElement) : Cand := ⟨e.id, displayName e⟩

/-- The inner loop of `build_player_data`: index one element under each
of its raw name variants' normalizations, skipping empty keys. -/
def indexElement (idx : List (String × List Cand)) (e : RawElement) :
    List (String × List Cand) :=
  (rawKeys e).foldl
    (fun idx k =>
      let nk := norm k
      if nk = "" then idx else dictAppend idx nk (candOf e)) idx

/-- The roster entry built for one element. -/
def rosterOf (e : RawElement) : RosterEntry :=
  ⟨e.id, displayName e, norm (fullName e), norm (webName e), norm (secondName e)⟩

/-- `build_player_data(elements)`: the exact index and the searchable
roster. -/
def build_player_data (elements : List RawElement) :
    List (String × List Cand) × List RosterEntry :=
  (elements.foldl indexElement [], elements.map rosterOf)

/-! ## Name resolution

`resolve_pick_to_element` reads the module-level tables
`PLAYER_ID_OVERRIDES` and `ALIASES`; the embedding passes them as
parameters (`overrides`, `aliases`), as the specification's resolver
contract does. -/

/-- The shipped `ALIASES` table. -/
def ALIASES : List (String × String) :=
  [("mgw", "morgan gibbs-white"),
   ("dcl", "dominic calvert-lewin"),
   ("bruno g", "bruno guimaraes"),
   ("guehi", "marc guehi"),
   ("neto", "pedro neto"),
   ("pedro", "joao pedro")]

/-- The shipped `PLAYER_ID_OVERRIDES` table (empty). -/
def PLAYER_ID_OVERRIDES : List (String × Int) := []

/-- The fuzzy-candidate filter of the fuzzy stage: the roster entries
all of whose tokens appear as whole words of some non-empty haystack
among the normalized full name and the normalized web name
(`any(all(t in h.split() for t in toks) for h in haystacks if h)`). -/
def fuzzyCandidates (toks : List String) (roster : List RosterEntry) :
    List RosterEntry :=
  roster.filter (fun r =>
    [r.n_full, r.n_web].any (fun h =>
      h ≠ "" && toks.all (fun t => (splitWords h).contains t)))

/-- The narrowing filter of the fuzzy stage: the fuzzy candidates all of
whose tokens are whole words of the normalized full name
(`t in (r["n_full"].split() if r["n_full"] else [])`). -/
def fullHits (toks : List String) (fuzzy : List RosterEntry) : List RosterEntry :=
  fuzzy.filter (fun r =>
    toks.all (fun t =>
      (if r.n_full ≠ "" then splitWords r.n_full else []).contains t))

/-- The fuzzy tail of `resolve_pick_to_element` (everything after the
exact lookup finds no candidate): tokenize the key, collect the fuzzy
candidates, then accept, narrow to full-name matches, or report
ambiguity.  The source's single ambiguous branch computes
`full_hits[:8] if full_hits else fuzzy[:8]`; the embedding writes that
conditional as two match arms on `full_hits` (empty versus two or
more), with identical results. -/
def fuzzy_resolve (pick key : String) (roster : List RosterEntry) : Resolution :=
  let toks := tokenize key
  match toks with
  | [] => ⟨"not_found", none, pick, none⟩
  | _ :: _ =>
    let fuzzy := fuzzyCandidates toks roster
    match fuzzy with
    | [r] => ⟨"ok", some r.id, r.display, none⟩
    | [] => ⟨"not_found", none, pick, none⟩
    | _ :: _ :: _ =>
      let full_hits := fullHits toks fuzzy
      match full_hits with
      | [r] => ⟨"ok", some r.id, r.display, none⟩
      | [] => ⟨"ambiguous", none, pick, some ((fuzzy.take 8).map (fun r => r.display))⟩
      | _ :: _ :: _ =>
        ⟨"ambiguous", none, pick, some ((full_hits.take 8).map (fun r => r.display))⟩

/-- `resolve_pick_to_element(pick, idx, roster)` from
`generate_scoreboard.py`: override, alias substitution, exact lookup,
then fuzzy matching. -/
def resolve_pick_to_element (overrides : List (String × Int))
    (aliases : List (String × String)) (pick : String)
    (idx : List (String × List Cand)) (roster : List RosterEntry) : Resolution :=
  match alookup overrides pick with
  | some oid => ⟨"ok", some oid, pick, none⟩
  | none =>
    let key0 := norm pick
    let key := (alookup aliases key0).getD key0
    let candidates := (alookup idx key).getD []
    match candidates with
    | [c] => ⟨"ok", some c.id, c.display, none⟩
    | _ :: _ :: _ =>
      ⟨"ambiguous", none, pick, some ((candidates.take 8).map (fun c => c.display))⟩
    | [] => fuzzy_resolve pick key roster

/-! ## Goal counting -/

/-- One record of an element-summary `history` list, with the two fields
the script reads; `none` stands for an absent (or `null`) field. -/
structure HistEntry where
  kickoff_time : Option String
  goals_scored : Option Int
deriving Repr, DecidableEq

/-- `goals_since_cutoff` from `generate_scoreboard.py`, applied to the
already-fetched `history` list of one element (the HTTP fetch and the
throttling sleep around it are outside the core): sum
`int(h.get("goals_scored", 0) or 0)` over the entries whose parsed
`kickoff_time` is at least `cutoff`, skipping entries whose
`kickoff_time` is absent or empty (Python's `if not kt`).  A present
kickoff that fails to parse raises `ValueError` in Python; the model
returns `none` there. -/
def goals_since_cutoff (cutoff : Int) : List HistEntry → Option Int
  | [] => some 0
  | h :: rest =>
    match h.kickoff_time with
    | none => goals_since_cutoff cutoff rest
    | some kt =>
      if kt = "" then goals_since_cutoff cutoff rest
      else
        match parse_iso_z kt with
        | none => none
        | some kick =>
          (goals_since_cutoff cutoff rest).map
            (fun t => (if cutoff ≤ kick then h.goals_scored.getD 0 else 0) + t)

/-! ## Scoreboard aggregation -/

/-- One per-pick row of a participant's `players` list (the `"ok"` rows
of the script carry no `suggestions` key, modelled as `none`). -/
structure Row where
  display_name : String
  status : String
  goals : Int
  suggestions : Option (List String)
deriving Repr, DecidableEq

/-- One entry of the `participants` list. -/
structure Participant where
  name : String
  players : List Row
  total : Int
  all_scored : Bool
  is_bust : Bool
deriving Repr, DecidableEq

/-- The per-pick loop of `compute_scoreboard`, processing picks in
order and returning the rows, the running total, and the `all_scored`
flag.  `score` is the per-element goal count (`goals_since_cutoff` of
the already-parsed cutoff, in the script); `rfn` is the resolution
function.  On an `"ok"` resolution the script reads
`int(resolved["id"])`, which the resolver always populated; the model
reads the id with default `0`. -/
def processPicks (rfn : String → Resolution) (score : Int → Int) :
    List String → List Row × Int × Bool
  | [] => ([], 0, true)
  | pick :: rest =>
    let resolved := rfn pick
    let acc := processPicks rfn score rest
    if resolved.status = "ok" then
      let g := score (resolved.id.getD 0)
      (⟨resolved.display_name, "ok", g, none⟩ :: acc.1,
       g + acc.2.1, (0 < g) && acc.2.2)
    else
      (⟨resolved.display_name, resolved.status, 0, resolved.suggestions⟩ :: acc.1,
       acc.2.1, false)

/-- The per-participant body of `compute_scoreboard`, including the bust
rule `is_bust = (total > 21) or (not all_scored)`. -/
def computeParticipant (rfn : String → Resolution) (score : Int → Int)
    (name : String) (picks : List String) : Participant :=
  let acc := processPicks rfn score picks
  ⟨name, acc.1, acc.2.1, acc.2.2, decide (21 < acc.2.1) || !acc.2.2⟩

/-- Stable insertion of a participant into a list sorted by total,
descending (ties keep the inserted element first, matching Python's
stable `list.sort(key=..., reverse=True)`). -/
def insertByTotalDesc (p : Participant) : List Participant → List Participant
  | [] => [p]
  | q :: qs =>
    if q.total ≤ p.total then p :: q :: qs else q :: insertByTotalDesc p qs

/-- `eligible.sort(key=lambda x: x["total"], reverse=True)`: stable sort
by total, descending. -/
def sortByTotalDesc (l : List Participant) : List Participant :=
  l.foldr insertByTotalDesc []

/-- The eligibility filter of `compute_scoreboard`. -/
def eligibleFilter (p : Participant) : Bool :=
  !p.is_bust && p.total ≤ 21 && p.all_scored

/-- `compute_scoreboard`, on its core data (the fetches, the timestamp
plumbing and the static notes of the output payload are outside the
core): build the index and roster from `elements`, resolve and score
every participant's picks, and produce the participants list and the
leaderboard. -/
def compute_scoreboard (overrides : List (String × Int))
    (aliases : List (String × String)) (elements : List RawElement)
    (score : Int → Int) (picksTable : List (String × List String)) :
    List Participant × List (String × Int) :=
  let built := build_player_data elements
  let rfn := fun p => resolve_pick_to_element overrides aliases p built.1 built.2
  let participants := picksTable.map (fun pr => computeParticipant rfn score pr.1 pr.2)
  let eligible := participants.filter eligibleFilter
  let leaderboard := (sortByTotalDesc eligible).map (fun p => (p.name, p.total))
  (participants, leaderboard)

/-! ## Concrete fixtures -/

/-- The two-player roster of the specification's fuzzy-narrowing
example: Bruno Guimaraes and Bruno Fernandes, with the surnames as
short names. -/
def brunoElements : List RawElement :=
  [⟨1, some "Bruno", some "Guimaraes", some "Guimaraes"⟩,
   ⟨2, some "Bruno", some "Fernandes", some "Fernandes"⟩]

/-- The exact index of `brunoElements`. -/
def brunoIdx : List (String × List Cand) := (build_player_data brunoElements).1

/-- The roster of `brunoElements`. -/
def brunoRoster : List RosterEntry := (build_player_data brunoElements).2

/-- A small exact index: one candidate under `"alpha"`, two under
`"beta"`. -/
def idxEx : List (String × List Cand) :=
  [("alpha", [⟨1, "Alpha One"⟩]),
   ("beta", [⟨2, "Beta One"⟩, ⟨3, "Beta Two"⟩])]

/-- A four-player roster for the aggregation fixtures. -/
def aggElements : List RawElement :=
  [⟨1, some "", some "Aa", some "Aa"⟩,
   ⟨2, some "", some "Bb", some "Bb"⟩,
   ⟨3, some "", some "Cc", some "Cc"⟩,
   ⟨4, some "", some "Dd", some "Dd"⟩]

/-- Goal counts 5, 9, 9, 3 for elements 1–4. -/
def aggScore (i : Int) : Int :=
  if i = 1 then 5 else if i = 2 then 9 else if i = 3 then 9
  else if i = 4 then 3 else 0

/-- Four participants with one pick each, resolving to elements 1–4. -/
def aggTable : List (String × List String) :=
  [("W", ["aa"]), ("X", ["bb"]), ("Y", ["cc"]), ("Z", ["dd"])]

example :
    resolve_pick_to_element [] [] "bruno g" brunoIdx brunoRoster =
      ⟨"not_found", none, "bruno g", none⟩ := by decide

example :
    resolve_pick_to_element [] ALIASES "bruno g" brunoIdx brunoRoster =
      ⟨"ok", some 1, "Bruno Guimaraes", none⟩ := by decide

example :
    resolve_pick_to_element [] [] "bruno" brunoIdx brunoRoster =
      ⟨"ambiguous", none, "bruno",
       some ["Bruno Guimaraes", "Bruno Fernandes"]⟩ := by decide

example :
    (compute_scoreboard [] [] aggElements aggScore aggTable).2 =
      [("X", 9), ("Y", 9), ("W", 5), ("Z", 3)] := by decide

/-! ## Claim C4: per-player contributions to the exact index -/

/-- Looking up `q` after `dictAppend idx k c`: the stored list grows by
`c` exactly at key `k`. -/
theorem alookup_dictAppend (idx : List (String × List Cand)) (k : String)
    (c : Cand) (q : String) :
    alookup (dictAppend idx k c) q =
      if q = k then some ((alookup idx k).getD [] ++ [c]) else alookup idx q := by
  induction idx with
  | nil =>
    by_cases hqk : q = k <;> simp [dictAppend, alookup, hqk]
  | cons kv rest ih =>
    obtain ⟨k', l⟩ := kv
    by_cases hk : k' = k
    · subst hk
      by_cases hqk : q = k' <;> simp [dictAppend, alookup, hqk]
    · have hkk : ¬k = k' := fun hh => hk hh.symm
      by_cases hqk : q = k'
      · subst hqk
        have hne : ¬q = k := fun hh => hk (hh ▸ rfl)
        simp [dictAppend, alookup, hk, hne]
      · simp [dictAppend, alookup, hk, hqk, ih, hkk]

/-- The contributions one element makes under a normalized key `nk`:
one candidate per raw name variant whose normalization is `nk`. -/
def contributions (e : RawElement) (nk : String) : List Cand :=
  ((rawKeys e).filter (fun k => norm k = nk)).map (fun _ => candOf e)

/-- Folding one element's keys into the index appends exactly its
contributions under every non-empty normalized key. -/
theorem alookup_indexElement (e : RawElement) (idx : List (String × List Cand))
    (nk : String) (hnk : nk ≠ "") :
    (alookup (indexElement idx e) nk).getD [] =
      (alookup idx nk).getD [] ++ contributions e nk := by
  unfold indexElement contributions
  generalize rawKeys e = keys
  induction keys generalizing idx with
  | nil => simp
  | cons k ks ih =>
    simp only [List.foldl_cons, List.filter_cons]
    by_cases hk : norm k = ""
    · have hne : ¬norm k = nk := fun hh => hnk (hh ▸ hk)
      rw [if_pos hk, ih idx]
      simp [hne]
    · rw [if_neg hk, ih (dictAppend idx (norm k) (candOf e)), alookup_dictAppend]
      by_cases heq : norm k = nk
      · rw [if_pos heq.symm]
        simp [heq]
      · rw [if_neg (fun hh : nk = norm k => heq hh.symm)]
        simp [heq]

/-- The exact index built by `build_player_data`, characterized: under
every non-empty normalized key, the stored candidate list is the
concatenation, in roster order, of each element's contributions — one
entry per distinct raw name variant of that element normalizing to the
key. -/
theorem alookup_build_player_data (elements : List RawElement) (nk : String)
    (hnk : nk ≠ "") :
    (alookup (build_player_data elements).1 nk).getD [] =
      elements.flatMap (fun e => contributions e nk) := by
  unfold build_player_data
  dsimp only
  suffices h : ∀ idx0 : List (String × List Cand),
      (alookup (elements.foldl indexElement idx0) nk).getD [] =
        (alookup idx0 nk).getD [] ++ elements.flatMap (fun e => contributions e nk) by
    simpa [alookup] using h []
  induction elements with
  | nil => simp
  | cons e es ih =>
    intro idx0
    simp only [List.foldl_cons, List.flatMap_cons]
    rw [ih, alookup_indexElement e idx0 nk hnk, List.append_assoc]

/-- The single-element roster of the C4 counterexample: the raw variants
`"Jose"` (full name) and `"JOSE"` (web name) are distinct strings that
both normalize to `"jose"`. -/
def joseElements : List RawElement := [⟨1, some "Jose", some "", some "JOSE"⟩]

/-- **C4 counterexample.** The claim says a player contributes at most
one index entry per distinct *normalized* key.  In the code the
per-player deduplication happens on the *raw* strings (a Python set of
`{full, web, second}`) before normalization, so the player of
`joseElements` contributes two entries under the single normalized key
`"jose"`. -/
theorem C4_counterexample :
    (alookup (build_player_data joseElements).1 "jose").getD [] =
      [⟨1, "Jose"⟩, ⟨1, "Jose"⟩] ∧
    ¬((alookup (build_player_data joseElements).1 "jose").getD []).countP
        (fun c => c.id == 1) ≤ 1 := by
  constructor
  · decide
  · decide

/-- **C4 amended.** In the exact index produced by the roster index
builder, every player contributes, under each non-empty normalized key,
exactly one entry per distinct *raw* name variant (full name, short
name, last name, deduplicated as raw strings) that normalizes to the
key — so two distinct raw variants with equal normalizations yield two
entries for the same player — and the entries under a key are the
per-player contributions concatenated in roster order. -/
theorem C4_raw_dedup_index (elements : List RawElement) (nk : String)
    (hnk : nk ≠ "") :
    (alookup (build_player_data elements).1 nk).getD [] =
      elements.flatMap (fun e =>
        ((rawKeys e).filter (fun k => norm k = nk)).map (fun _ => candOf e)) :=
  alookup_build_player_data elements nk hnk

/-- **C4 witness.** The characterization applied to `joseElements` at
key `"jose"`: both raw variants `"Jose"` and `"JOSE"` normalize to
`"jose"`, and the stored list is the two corresponding entries. -/
theorem C4_raw_dedup_index_witness :
    (alookup (build_player_data joseElements).1 "jose").getD [] =
      joseElements.flatMap (fun e =>
        ((rawKeys e).filter (fun k => norm k = "jose")).map (fun _ => candOf e)) ∧
    joseElements.flatMap (fun e =>
        ((rawKeys e).filter (fun k => norm k = "jose")).map (fun _ => candOf e)) =
      [⟨1, "Jose"⟩, ⟨1, "Jose"⟩] :=
  ⟨C4_raw_dedup_index joseElements "jose" (by decide), by decide⟩

/-! ## Claim C3: override precedence -/

/-- **C3.** For every pick whose raw (unnormalized) text is a key of the
override table, resolve returns Ok with the overridden id and the
original pick text as display name, regardless of the alias table, the
exact index, or the roster; in particular a colliding alias is ignored. -/
theorem C3_override_precedence (overrides : List (String × Int))
    (aliases : List (String × String)) (pick : String)
    (idx : List (String × List Cand)) (roster : List RosterEntry) (oid : Int)
    (hov : alookup overrides pick = some oid) :
    resolve_pick_to_element overrides aliases pick idx roster =
      ⟨"ok", some oid, pick, none⟩ := by
  unfold resolve_pick_to_element
  rw [hov]

/-- **C3 witness.** The pick `"Neto"` has the override id `999` and a
colliding alias (`"neto" ↦ "pedro neto"` is in the shipped alias
table); the override wins. -/
theorem C3_override_precedence_witness :
    alookup ALIASES (norm "Neto") = some "pedro neto" ∧
    resolve_pick_to_element [("Neto", 999)] ALIASES "Neto" idxEx brunoRoster =
      ⟨"ok", some 999, "Neto", none⟩ :=
  ⟨by decide, C3_override_precedence [("Neto", 999)] ALIASES "Neto" idxEx
    brunoRoster 999 (by decide)⟩

/-! ## Claim C2: the exact-lookup step -/

/-- **C2.** For every pick not present in the override table, looking up
its (possibly alias-substituted) normalized key in the exact index
yields: Ok with the single candidate's id and display name when exactly
one candidate is indexed under the key; Ambiguous with suggestions equal
to the first 8 candidates in index insertion order when two or more
candidates are indexed; and fall-through to the fuzzy stage (never a
direct result from this step) when zero candidates are indexed. -/
theorem C2_exact_lookup_step (overrides : List (String × Int))
    (aliases : List (String × String)) (pick : String)
    (idx : List (String × List Cand)) (roster : List RosterEntry)
    (hov : alookup overrides pick = none) :
    (∀ c : Cand,
      (alookup idx ((alookup aliases (norm pick)).getD (norm pick))).getD [] = [c] →
      resolve_pick_to_element overrides aliases pick idx roster =
        ⟨"ok", some c.id, c.display, none⟩) ∧
    (2 ≤ ((alookup idx ((alookup aliases (norm pick)).getD (norm pick))).getD []).length →
      resolve_pick_to_element overrides aliases pick idx roster =
        ⟨"ambiguous", none, pick,
         some ((((alookup idx ((alookup aliases (norm pick)).getD (norm pick))).getD
           []).take 8).map (fun c => c.display))⟩) ∧
    ((alookup idx ((alookup aliases (norm pick)).getD (norm pick))).getD [] = [] →
      resolve_pick_to_element overrides aliases pick idx roster =
        fuzzy_resolve pick ((alookup aliases (norm pick)).getD (norm pick)) roster) := by
  unfold resolve_pick_to_element
  rw [hov]
  dsimp only
  refine ⟨fun c hc => ?_, fun h2 => ?_, fun h0 => ?_⟩
  · rw [hc]
  · rcases hl : (alookup idx ((alookup aliases (norm pick)).getD (norm pick))).getD []
      with _ | ⟨a, _ | ⟨b, t⟩⟩
    · rw [hl] at h2; simp at h2
    · rw [hl] at h2; simp at h2
    · rfl
  · rw [h0]

/-- **C2 witness.** On the fixture index: `"alpha"` has one candidate
and resolves Ok to it; `"beta"` has two candidates and is Ambiguous with
both suggestions in index order; `"gamma"` has none and falls through to
the fuzzy stage. -/
theorem C2_exact_lookup_step_witness :
    resolve_pick_to_element [] [] "Alpha" idxEx [] =
      ⟨"ok", some 1, "Alpha One", none⟩ ∧
    resolve_pick_to_element [] [] "Beta" idxEx [] =
      ⟨"ambiguous", none, "Beta", some ["Beta One", "Beta Two"]⟩ ∧
    resolve_pick_to_element [] [] "Gamma" idxEx [] =
      fuzzy_resolve "Gamma" "gamma" [] :=
  ⟨by
    have h := (C2_exact_lookup_step [] [] "Alpha" idxEx [] (by decide)).1
      ⟨1, "Alpha One"⟩ (by decide)
    simpa using h,
   by
    have h := (C2_exact_lookup_step [] [] "Beta" idxEx [] (by decide)).2.1 (by decide)
    simpa using h,
   by
    have h := (C2_exact_lookup_step [] [] "Gamma" idxEx [] (by decide)).2.2 (by decide)
    simpa using h⟩

/-! ## Claim C8: resolution failures in the aggregator -/

/-- **C8.** For every pick that resolves to NotFound or Ambiguous, the
aggregator records a row for that pick with zero goals, the resolution
status, and the resolution's suggestions, marks the participant as
not-all-scored, contributes nothing to the participant's running total,
and continues processing the remaining picks (the rows of the picks
before and after the failing one are untouched and their goals are
summed as usual) and the remaining participants (every entry of the
picks table yields a participant result). -/
theorem C8_failures_recorded_not_fatal (rfn : String → Resolution)
    (score : Int → Int) (xs ys : List String) (bad : String)
    (hbad : (rfn bad).status = "not_found" ∨ (rfn bad).status = "ambiguous") :
    ((processPicks rfn score (xs ++ bad :: ys)).1 =
      (processPicks rfn score xs).1 ++
        ⟨(rfn bad).display_name, (rfn bad).status, 0, (rfn bad).suggestions⟩ ::
          (processPicks rfn score ys).1 ∧
    (processPicks rfn score (xs ++ bad :: ys)).2.1 =
      (processPicks rfn score xs).2.1 + (processPicks rfn score ys).2.1 ∧
    (processPicks rfn score (xs ++ bad :: ys)).2.2 = false) ∧
    ∀ (overrides : List (String × Int)) (aliases : List (String × String))
      (elements : List RawElement) (sc : Int → Int)
      (tbl : List (String × List String)),
      ((compute_scoreboard overrides aliases elements sc tbl).1).map
          (fun p => p.name) = tbl.map (fun pr => pr.1) := by
  have hne : ¬(rfn bad).status = "ok" := by
    rcases hbad with h | h <;> rw [h] <;> decide
  constructor
  · induction xs with
    | nil => simp [processPicks, hne]
    | cons x xs ih =>
      obtain ⟨ih1, ih2, ih3⟩ := ih
      by_cases hx : (rfn x).status = "ok"
      · simp only [List.cons_append, processPicks, if_pos hx, List.append_eq]
        refine ⟨by rw [ih1], ?_, by rw [ih3]; simp⟩
        rw [ih2]; omega
      · simp only [List.cons_append, processPicks, if_neg hx, List.append_eq]
        exact ⟨by rw [ih1], by rw [ih2], by trivial⟩
  · intro overrides aliases elements sc tbl
    simp [compute_scoreboard, computeParticipant]

/-- **C8 witness.** On the two-player Bruno roster, the pick `"zzz"` is
NotFound between two Ok picks; the row list interleaves as stated, the
failing pick adds nothing to the total, and the participant is marked
not-all-scored. -/
theorem C8_failures_recorded_not_fatal_witness :
    (processPicks
        (fun p => resolve_pick_to_element [] [] p brunoIdx brunoRoster)
        (fun _ => 3) (["guimaraes"] ++ "zzz" :: ["fernandes"])).1 =
      (processPicks
        (fun p => resolve_pick_to_element [] [] p brunoIdx brunoRoster)
        (fun _ => 3) ["guimaraes"]).1 ++
        ⟨(resolve_pick_to_element [] [] "zzz" brunoIdx brunoRoster).display_name,
         (resolve_pick_to_element [] [] "zzz" brunoIdx brunoRoster).status, 0,
         (resolve_pick_to_element [] [] "zzz" brunoIdx brunoRoster).suggestions⟩ ::
          (processPicks
            (fun p => resolve_pick_to_element [] [] p brunoIdx brunoRoster)
            (fun _ => 3) ["fernandes"]).1 ∧
    (processPicks
        (fun p => resolve_pick_to_element [] [] p brunoIdx brunoRoster)
        (fun _ => 3) (["guimaraes"] ++ "zzz" :: ["fernandes"])).2.1 =
      (processPicks
        (fun p => resolve_pick_to_element [] [] p brunoIdx brunoRoster)
        (fun _ => 3) ["guimaraes"]).2.1 +
      (processPicks
        (fun p => resolve_pick_to_element [] [] p brunoIdx brunoRoster)
        (fun _ => 3) ["fernandes"]).2.1 ∧
    (processPicks
        (fun p => resolve_pick_to_element [] [] p brunoIdx brunoRoster)
        (fun _ => 3) (["guimaraes"] ++ "zzz" :: ["fernandes"])).2.2 = false :=
  (C8_failures_recorded_not_fatal
    (fun p => resolve_pick_to_element [] [] p brunoIdx brunoRoster)
    (fun _ => 3) ["guimaraes"] ["fernandes"] "zzz" (Or.inl (by decide))).1

/-! ## Claim C5: the bust rule -/

/-- The `all_scored` flag is true exactly when every pick resolved Ok
and scored strictly more than zero goals. -/
theorem processPicks_all_scored (rfn : String → Resolution) (score : Int → Int)
    (picks : List String) :
    (processPicks rfn score picks).2.2 = true ↔
      ∀ p ∈ picks, (rfn p).status = "ok" ∧ 0 < score ((rfn p).id.getD 0) := by
  induction picks with
  | nil => simp [processPicks]
  | cons x xs ih =>
    by_cases hx : (rfn x).status = "ok"
    · simp only [processPicks, if_pos hx, List.forall_mem_cons, Bool.and_eq_true,
        decide_eq_true_eq, ih]
      tauto
    · simp only [processPicks, if_neg hx, List.forall_mem_cons]
      simp only [Bool.false_eq_true, false_iff]
      intro hcontra
      exact hx hcontra.1.1

/-- **C5.** A participant's bust flag is true iff the total exceeds 21
or not every pick both resolved Ok and scored strictly more than zero
goals.  In particular (on one-pick participants resolved by a constant
resolution function): a total of 22 is bust even though all picks
scored, a total of 21 with all picks scoring is not bust, and a NotFound
pick makes the participant bust even with a total of 0. -/
theorem C5_bust_rule :
    (∀ (rfn : String → Resolution) (score : Int → Int) (name : String)
       (picks : List String),
      (computeParticipant rfn score name picks).is_bust = true ↔
        (21 < (computeParticipant rfn score name picks).total ∨
         ¬∀ p ∈ picks, (rfn p).status = "ok" ∧ 0 < score ((rfn p).id.getD 0))) ∧
    ((computeParticipant (fun p => ⟨"ok", some 1, p, none⟩) (fun _ => 22)
        "A" ["x"]).total = 22 ∧
     (computeParticipant (fun p => ⟨"ok", some 1, p, none⟩) (fun _ => 22)
        "A" ["x"]).all_scored = true ∧
     (computeParticipant (fun p => ⟨"ok", some 1, p, none⟩) (fun _ => 22)
        "A" ["x"]).is_bust = true) ∧
    ((computeParticipant (fun p => ⟨"ok", some 1, p, none⟩) (fun _ => 21)
        "B" ["x"]).total = 21 ∧
     (computeParticipant (fun p => ⟨"ok", some 1, p, none⟩) (fun _ => 21)
        "B" ["x"]).is_bust = false) ∧
    ((computeParticipant (fun p => ⟨"not_found", none, p, none⟩) (fun _ => 5)
        "C" ["x"]).total = 0 ∧
     (computeParticipant (fun p => ⟨"not_found", none, p, none⟩) (fun _ => 5)
        "C" ["x"]).is_bust = true) := by
  refine ⟨fun rfn score name picks => ?_, by decide, by decide, by decide⟩
  unfold computeParticipant
  dsimp only
  rw [Bool.or_eq_true, Bool.not_eq_true', decide_eq_true_eq]
  rw [← processPicks_all_scored rfn score picks]
  rcases (processPicks rfn score picks).2.2 with _ | _ <;> simp

/-! ## Claim C6: the leaderboard -/

/-- Stable insertion permutes: inserting `p` yields `p :: l` up to
permutation. -/
theorem insertByTotalDesc_perm (p : Participant) (l : List Participant) :
    (insertByTotalDesc p l).Perm (p :: l) := by
  induction l with
  | nil => exact List.Perm.refl _
  | cons q qs ih =>
    by_cases hq : q.total ≤ p.total
    · rw [insertByTotalDesc, if_pos hq]
    · rw [insertByTotalDesc, if_neg hq]
      exact (List.Perm.cons q ih).trans (List.Perm.swap p q qs)

/-- The stable descending sort permutes its input. -/
theorem sortByTotalDesc_perm (l : List Participant) :
    (sortByTotalDesc l).Perm l := by
  induction l with
  | nil => exact List.Perm.refl _
  | cons x xs ih =>
    exact (insertByTotalDesc_perm x (sortByTotalDesc xs)).trans (ih.cons x)

/-- Stable insertion preserves sortedness by total, descending. -/
theorem insertByTotalDesc_sorted (p : Participant) (l : List Participant)
    (hl : l.Sorted (fun a b => b.total ≤ a.total)) :
    (insertByTotalDesc p l).Sorted (fun a b => b.total ≤ a.total) := by
  induction l with
  | nil => simp [insertByTotalDesc]
  | cons q qs ih =>
    rw [List.sorted_cons] at hl
    obtain ⟨hq_all, hqs⟩ := hl
    by_cases hq : q.total ≤ p.total
    · rw [insertByTotalDesc, if_pos hq]
      rw [List.sorted_cons]
      refine ⟨fun b hb => ?_, List.sorted_cons.mpr ⟨hq_all, hqs⟩⟩
      rcases List.mem_cons.mp hb with rfl | hb
      · exact hq
      · exact le_trans (hq_all b hb) hq
    · rw [insertByTotalDesc, if_neg hq]
      rw [List.sorted_cons]
      refine ⟨fun b hb => ?_, ih hqs⟩
      rcases List.mem_cons.mp ((insertByTotalDesc_perm p qs).mem_iff.mp hb)
        with rfl | hb'
      · exact le_of_lt (lt_of_not_le hq)
      · exact hq_all b hb'

/-- The stable descending sort sorts by total, descending. -/
theorem sortByTotalDesc_sorted (l : List Participant) :
    (sortByTotalDesc l).Sorted (fun a b => b.total ≤ a.total) := by
  induction l with
  | nil => simp [sortByTotalDesc]
  | cons x xs ih => exact insertByTotalDesc_sorted x (sortByTotalDesc xs) ih

/-- Stability of insertion: restricted to any fixed total `t`, inserting
`p` prepends it when `p.total = t` and changes nothing otherwise. -/
theorem insertByTotalDesc_filter_total (p : Participant) (l : List Participant)
    (t : Int) :
    (insertByTotalDesc p l).filter (fun q => q.total = t) =
      if p.total = t then p :: l.filter (fun q => q.total = t)
      else l.filter (fun q => q.total = t) := by
  induction l with
  | nil =>
    by_cases hp : p.total = t <;> simp [insertByTotalDesc, hp]
  | cons q qs ih =>
    by_cases hq : q.total ≤ p.total
    · rw [insertByTotalDesc, if_pos hq]
      by_cases hp : p.total = t <;> simp [List.filter_cons, hp]
    · rw [insertByTotalDesc, if_neg hq]
      by_cases hp : p.total = t
      · have hqt : ¬q.total = t := by
          intro hqt
          exact hq (le_of_eq (hp ▸ hqt))
        simp [List.filter_cons, hp, hqt, ih]
      · by_cases hqt : q.total = t <;> simp [List.filter_cons, hp, hqt, ih]

/-- Stability of the sort: restricted to any fixed total, the sorted
list agrees with the input (ties keep their input order). -/
theorem sortByTotalDesc_filter_total (l : List Participant) (t : Int) :
    (sortByTotalDesc l).filter (fun q => q.total = t) =
      l.filter (fun q => q.total = t) := by
  induction l with
  | nil => rfl
  | cons x xs ih =>
    show (insertByTotalDesc x (sortByTotalDesc xs)).filter _ = _
    rw [insertByTotalDesc_filter_total, List.filter_cons]
    by_cases hx : x.total = t <;> simp [hx, ih]

/-- Stability carries over to the projected name/total pairs. -/
theorem sortByTotalDesc_map_filter (el : List Participant) (t : Int) :
    ((sortByTotalDesc el).map (fun p => (p.name, p.total))).filter
        (fun a => a.2 = t) =
      (el.map (fun p => (p.name, p.total))).filter (fun a => a.2 = t) := by
  rw [List.filter_map, List.filter_map, Function.comp_def]
  dsimp only
  rw [sortByTotalDesc_filter_total]

/-- **C6.** The leaderboard contains exactly the name/total pairs of the
participants that are not bust, have total at most 21, and have all
picks scored (as a permutation of that filtered projection), is sorted
by total descending, and is stable: restricted to any fixed total, it
lists those participants in input order.  On the fixture with eligible
totals `[5, 9, 9, 3]` in input order, the leaderboard totals are
`[9, 9, 5, 3]` with the two 9s in their original relative order. -/
theorem C6_leaderboard :
    (∀ (overrides : List (String × Int)) (aliases : List (String × String))
       (elements : List RawElement) (score : Int → Int)
       (tbl : List (String × List String)),
      ((compute_scoreboard overrides aliases elements score tbl).2).Perm
        ((((compute_scoreboard overrides aliases elements score tbl).1).filter
            eligibleFilter).map (fun p => (p.name, p.total))) ∧
      ((compute_scoreboard overrides aliases elements score tbl).2).Sorted
        (fun a b => b.2 ≤ a.2) ∧
      ∀ t : Int,
        ((compute_scoreboard overrides aliases elements score tbl).2).filter
            (fun a => a.2 = t) =
          ((((compute_scoreboard overrides aliases elements score tbl).1).filter
              eligibleFilter).map (fun p => (p.name, p.total))).filter
            (fun a => a.2 = t)) ∧
    (((compute_scoreboard [] [] aggElements aggScore aggTable).1).filter
        eligibleFilter).map (fun p => p.total) = [5, 9, 9, 3] ∧
    (compute_scoreboard [] [] aggElements aggScore aggTable).2 =
      [("X", 9), ("Y", 9), ("W", 5), ("Z", 3)] := by
  refine ⟨fun overrides aliases elements score tbl => ?_, by decide, by decide⟩
  simp only [compute_scoreboard]
  refine ⟨?_, ?_, ?_⟩
  · exact (sortByTotalDesc_perm _).map _
  · exact List.Pairwise.map _ (fun a b h => h) (sortByTotalDesc_sorted _)
  · intro t
    exact sortByTotalDesc_map_filter _ t

/-! ## Claim C9: idempotence and totality of `norm`

`norm` is total by construction.  Idempotence holds for strings whose
characters are *tame*: every character of the NFKD decomposition of the
lowercased character is itself fixed by lowercasing and by NFKD (all
ASCII and all accented Latin letters are tame).  It fails in general:
letterlike symbols such as `'ℂ'` have no lowercase mapping but
decompose to an uppercase letter, so `norm "ℂ" = "C"` while
`norm "C" = "c"`. -/

/-- A character fixed by lowercasing and by NFKD decomposition. -/
def stableChar (c : Char) : Bool :=
  (pyLowerChar c = c) && (nfkdChar c = [c])

/-- A tame input character: every character of the NFKD decomposition
of its lowercase form is stable. -/
def goodChar (c : Char) : Bool := (nfkdChar (pyLowerChar c)).all stableChar

/-- A list with `isEmpty = false` is not nil. -/
theorem ne_nil_of_isEmpty_false {α : Type} (l : List α) (h : l.isEmpty = false) :
    l ≠ [] := by
  cases l
  · simp at h
  · simp

/-- Words produced by `wordsAux` are non-empty, whitespace-free, and
made of characters of the input (or of the accumulator). -/
theorem wordsAux_props (l : List Char) :
    ∀ acc : List Char, (∀ c ∈ acc, pyIsSpace c = false) →
      ∀ w ∈ wordsAux l acc,
        w ≠ [] ∧ ∀ c ∈ w, pyIsSpace c = false ∧ (c ∈ l ∨ c ∈ acc) := by
  induction l with
  | nil =>
    intro acc hacc w hw
    rw [wordsAux] at hw
    rcases hacc' : acc.isEmpty with _ | _
    · rw [hacc', if_neg (by simp)] at hw
      rcases List.mem_singleton.mp hw with rfl
      refine ⟨fun hrev => ne_nil_of_isEmpty_false acc hacc' (List.reverse_eq_nil_iff.mp hrev), ?_⟩
      intro c hc
      rw [List.mem_reverse] at hc
      exact ⟨hacc c hc, Or.inr hc⟩
    · rw [hacc', if_pos rfl] at hw
      exact absurd hw (List.not_mem_nil w)
  | cons x xs ih =>
    intro acc hacc w hw
    rw [wordsAux] at hw
    rcases hx : pyIsSpace x with _ | _
    · rw [hx] at hw
      simp only [Bool.false_eq_true, if_false] at hw
      have h := ih (x :: acc)
        (by
          intro c hc
          rcases List.mem_cons.mp hc with rfl | hc
          · exact hx
          · exact hacc c hc) w hw
      refine ⟨h.1, fun c hc => ?_⟩
      obtain ⟨hns, hmem⟩ := h.2 c hc
      refine ⟨hns, ?_⟩
      rcases hmem with hmem | hmem
      · exact Or.inl (List.mem_cons_of_mem x hmem)
      · rcases List.mem_cons.mp hmem with rfl | hmem
        · exact Or.inl (List.mem_cons_self c xs)
        · exact Or.inr hmem
    · rw [hx] at hw
      simp only [if_true] at hw
      have tail_case : ∀ w ∈ wordsAux xs [],
          w ≠ [] ∧ ∀ c ∈ w, pyIsSpace c = false ∧ (c ∈ x :: xs ∨ c ∈ acc) := by
        intro w hw
        have h := ih [] (by intro c hc; exact absurd hc (List.not_mem_nil c)) w hw
        refine ⟨h.1, fun c hc => ?_⟩
        obtain ⟨hns, hmem⟩ := h.2 c hc
        refine ⟨hns, ?_⟩
        rcases hmem with hmem | hmem
        · exact Or.inl (List.mem_cons_of_mem x hmem)
        · exact absurd hmem (List.not_mem_nil c)
      rcases hacc' : acc.isEmpty with _ | _
      · rw [hacc'] at hw
        simp only [Bool.false_eq_true, if_false] at hw
        rcases List.mem_cons.mp hw with rfl | hw
        · refine ⟨fun hrev => ne_nil_of_isEmpty_false acc hacc' (List.reverse_eq_nil_iff.mp hrev), ?_⟩
          intro c hc
          rw [List.mem_reverse] at hc
          exact ⟨hacc c hc, Or.inr hc⟩
        · exact tail_case w hw
      · rw [hacc'] at hw
        simp only [if_true] at hw
        exact tail_case w hw

/-- Words of a list are non-empty, whitespace-free, and drawn from the
list's characters. -/
theorem pyWords_props (l : List Char) :
    ∀ w ∈ pyWords l, w ≠ [] ∧ ∀ c ∈ w, pyIsSpace c = false ∧ c ∈ l := by
  intro w hw
  have h := wordsAux_props l [] (by intro c hc; exact absurd hc (List.not_mem_nil c))
    w hw
  refine ⟨h.1, fun c hc => ?_⟩
  obtain ⟨hns, hmem⟩ := h.2 c hc
  refine ⟨hns, ?_⟩
  rcases hmem with hmem | hmem
  · exact hmem
  · exact absurd hmem (List.not_mem_nil c)

/-- `wordsAux` scans past a whitespace-free prefix, accumulating it. -/
theorem wordsAux_append (w : List Char) :
    ∀ (l' acc : List Char), (∀ c ∈ w, pyIsSpace c = false) →
      wordsAux (w ++ l') acc = wordsAux l' (w.reverse ++ acc) := by
  induction w with
  | nil => intro l' acc _; simp
  | cons x xs ih =>
    intro l' acc hw
    have hx : pyIsSpace x = false := hw x (List.mem_cons_self x xs)
    rw [List.cons_append, wordsAux, hx]
    simp only [Bool.false_eq_true, if_false]
    rw [ih l' (x :: acc) (fun c hc => hw c (List.mem_cons_of_mem x hc))]
    rw [List.reverse_cons, List.append_assoc]
    rfl

/-- `wordsAux` on a whitespace-free list yields the single accumulated
word (or nothing when everything is empty). -/
theorem wordsAux_nonspace (w acc : List Char) (hw : ∀ c ∈ w, pyIsSpace c = false) :
    wordsAux w acc =
      if acc.reverse ++ w = [] then [] else [acc.reverse ++ w] := by
  have h := wordsAux_append w [] acc hw
  rw [List.append_nil] at h
  rw [h, wordsAux]
  rcases he : (w.reverse ++ acc).isEmpty with _ | _
  · simp only [Bool.false_eq_true, if_false]
    have hne : ¬(acc.reverse ++ w = []) := by
      intro hcontra
      rcases List.append_eq_nil.mp hcontra with ⟨h1, h2⟩
      have hacc : acc = [] := by
        have := congrArg List.reverse h1
        rwa [List.reverse_reverse, List.reverse_nil] at this
      have hne' := ne_nil_of_isEmpty_false _ he
      rw [h2, hacc] at hne'
      exact hne' rfl
    rw [if_neg hne, List.reverse_append, List.reverse_reverse]
  · simp only [if_true]
    have := List.isEmpty_iff.mp he
    rcases List.append_eq_nil.mp this with ⟨h1, h2⟩
    have hw0 : w = [] := by
      have := congrArg List.reverse h1
      rwa [List.reverse_reverse, List.reverse_nil] at this
    rw [hw0, h2]
    simp

/-- `joinSpace` of a non-empty first word is non-empty. -/
theorem joinSpace_ne_nil (w : List Char) (ws : List (List Char)) (hw : w ≠ []) :
    joinSpace (w :: ws) ≠ [] := by
  cases ws with
  | nil => simpa [joinSpace] using hw
  | cons w' ws' =>
    rw [joinSpace]
    intro hcontra
    rcases List.append_eq_nil.mp hcontra with ⟨h1, _⟩
    exact hw h1

/-- The head of an append with a non-empty left part. -/
theorem head?_append_left {α : Type} (a b : List α) (h : a ≠ []) :
    (a ++ b).head? = a.head? := by
  cases a with
  | nil => exact absurd rfl h
  | cons x xs => rfl

/-- Splitting the join of good words recovers the words. -/
theorem pyWords_joinSpace (ws : List (List Char))
    (hws : ∀ w ∈ ws, w ≠ [] ∧ ∀ c ∈ w, pyIsSpace c = false) :
    pyWords (joinSpace ws) = ws := by
  induction ws with
  | nil => rfl
  | cons w ws ih =>
    obtain ⟨hw_ne, hw_ns⟩ := hws w (List.mem_cons_self w ws)
    have hws' := fun w' hw' => hws w' (List.mem_cons_of_mem w hw')
    cases ws with
    | nil =>
      rw [joinSpace]
      unfold pyWords
      rw [wordsAux_nonspace w [] hw_ns]
      rw [List.reverse_nil, List.nil_append, if_neg hw_ne]
    | cons w' ws' =>
      rw [joinSpace]
      unfold pyWords
      rw [wordsAux_append w (' ' :: joinSpace (w' :: ws')) [] hw_ns]
      rw [wordsAux]
      have hsp : pyIsSpace ' ' = true := rfl
      rw [hsp]
      simp only [if_true]
      rw [List.append_nil]
      have hne : (w.reverse).isEmpty = false := by
        cases hrev : w.reverse with
        | nil =>
          exact absurd (by
            have := congrArg List.reverse hrev
            rwa [List.reverse_reverse, List.reverse_nil] at this) hw_ne
        | cons _ _ => rfl
      rw [hne]
      simp only [Bool.false_eq_true, if_false]
      rw [List.reverse_reverse]
      have := ih hws'
      unfold pyWords at this
      rw [this]

/-- Every character of a join is a space or a character of a word. -/
theorem mem_joinSpace (ws : List (List Char)) (c : Char)
    (hc : c ∈ joinSpace ws) : c = ' ' ∨ ∃ w ∈ ws, c ∈ w := by
  induction ws with
  | nil => exact absurd hc (List.not_mem_nil c)
  | cons w ws ih =>
    cases ws with
    | nil =>
      rw [joinSpace] at hc
      exact Or.inr ⟨w, List.mem_cons_self w [], hc⟩
    | cons w' ws' =>
      rw [joinSpace] at hc
      rcases List.mem_append.mp hc with hc | hc
      · exact Or.inr ⟨w, List.mem_cons_self w _, hc⟩
      · rcases List.mem_cons.mp hc with rfl | hc
        · exact Or.inl rfl
        · rcases ih hc with h | ⟨w'', hw'', hcw⟩
          · exact Or.inl h
          · exact Or.inr ⟨w'', List.mem_cons_of_mem w hw'', hcw⟩

/-- `dropWhile` is the identity when the head fails the predicate. -/
theorem dropWhile_eq_self_of_head (p : Char → Bool) (l : List Char)
    (h : ∀ c, l.head? = some c → p c = false) : l.dropWhile p = l := by
  cases l with
  | nil => rfl
  | cons x xs =>
    rw [List.dropWhile_cons, h x rfl]
    simp

/-- The head of a join of good words is not whitespace. -/
theorem joinSpace_head_nonspace (ws : List (List Char))
    (hws : ∀ w ∈ ws, w ≠ [] ∧ ∀ c ∈ w, pyIsSpace c = false) :
    ∀ c, (joinSpace ws).head? = some c → pyIsSpace c = false := by
  intro c hc
  cases ws with
  | nil => simp [joinSpace] at hc
  | cons w ws' =>
    obtain ⟨hw_ne, hw_ns⟩ := hws w (List.mem_cons_self w ws')
    have hhead : (joinSpace (w :: ws')).head? = w.head? := by
      cases ws' with
      | nil => rfl
      | cons w' ws'' => exact head?_append_left w _ hw_ne
    rw [hhead] at hc
    exact hw_ns c (List.mem_of_mem_head? hc)

/-- The last character of a join of good words is not whitespace. -/
theorem joinSpace_reverse_head_nonspace (ws : List (List Char))
    (hws : ∀ w ∈ ws, w ≠ [] ∧ ∀ c ∈ w, pyIsSpace c = false) :
    ∀ c, (joinSpace ws).reverse.head? = some c → pyIsSpace c = false := by
  induction ws with
  | nil => intro c hc; simp [joinSpace] at hc
  | cons w ws' ih =>
    intro c hc
    obtain ⟨hw_ne, hw_ns⟩ := hws w (List.mem_cons_self w ws')
    have hws'' := fun w' hw' => hws w' (List.mem_cons_of_mem w hw')
    cases ws' with
    | nil =>
      have : (joinSpace [w]).reverse = w.reverse := rfl
      rw [this] at hc
      have hcw : c ∈ w := List.mem_reverse.mp (List.mem_of_mem_head? hc)
      exact hw_ns c hcw
    | cons w' ws'' =>
      obtain ⟨hw'_ne, _⟩ := hws'' w' (List.mem_cons_self w' ws'')
      have hrest_ne : joinSpace (w' :: ws'') ≠ [] := joinSpace_ne_nil w' ws'' hw'_ne
      have hrev_ne : (joinSpace (w' :: ws'')).reverse ≠ [] := by
        intro hcontra
        have h2 := congrArg List.reverse hcontra
        rw [List.reverse_reverse, List.reverse_nil] at h2
        exact hrest_ne h2
      rw [joinSpace, List.reverse_append, List.reverse_cons] at hc
      rw [List.append_assoc, head?_append_left _ _ hrev_ne] at hc
      exact ih hws'' c hc

/-- `pyStrip` is the identity on a list whose first and last characters
are not whitespace. -/
theorem pyStrip_eq_self (l : List Char)
    (hhead : ∀ c, l.head? = some c → pyIsSpace c = false)
    (hlast : ∀ c, l.reverse.head? = some c → pyIsSpace c = false) :
    pyStrip l = l := by
  unfold pyStrip
  rw [dropWhile_eq_self_of_head pyIsSpace l hhead]
  rw [dropWhile_eq_self_of_head pyIsSpace l.reverse hlast]
  exact List.reverse_reverse l

/-- `map` is the identity when the function fixes every element. -/
theorem map_eq_self_of {α : Type} (f : α → α) (l : List α)
    (h : ∀ c ∈ l, f c = c) : l.map f = l := by
  induction l with
  | nil => rfl
  | cons x xs ih =>
    rw [List.map_cons, h x (List.mem_cons_self x xs),
      ih (fun c hc => h c (List.mem_cons_of_mem x hc))]

/-- `nfkdL` is the identity on NFKD-fixed characters. -/
theorem nfkdL_eq_self (l : List Char) (h : ∀ c ∈ l, nfkdChar c = [c]) :
    nfkdL l = l := by
  induction l with
  | nil => rfl
  | cons x xs ih =>
    rw [nfkdL, h x (List.mem_cons_self x xs),
      ih (fun c hc => h c (List.mem_cons_of_mem x hc))]
    rfl

/-- Every character of an NFKD decomposition comes from the
decomposition of some input character. -/
theorem mem_nfkdL (l : List Char) (c : Char) (hc : c ∈ nfkdL l) :
    ∃ c0 ∈ l, c ∈ nfkdChar c0 := by
  induction l with
  | nil => exact absurd hc (List.not_mem_nil c)
  | cons x xs ih =>
    rw [nfkdL] at hc
    rcases List.mem_append.mp hc with hc | hc
    · exact ⟨x, List.mem_cons_self x xs, hc⟩
    · obtain ⟨c0, hc0, hcd⟩ := ih hc
      exact ⟨c0, List.mem_cons_of_mem x hc0, hcd⟩

/-- Stripping only removes characters. -/
theorem mem_pyStrip (l : List Char) (c : Char) (hc : c ∈ pyStrip l) : c ∈ l := by
  unfold pyStrip at hc
  rw [List.mem_reverse] at hc
  have hc1 := (List.dropWhile_sublist pyIsSpace).subset hc
  rw [List.mem_reverse] at hc1
  exact (List.dropWhile_sublist pyIsSpace).subset hc1

/-- Unfolding a stable character. -/
theorem stableChar_spec (c : Char) (h : stableChar c = true) :
    pyLowerChar c = c ∧ nfkdChar c = [c] := by
  rw [stableChar, Bool.and_eq_true, decide_eq_true_eq, decide_eq_true_eq] at h
  exact h

/-- Idempotence of the normalization pipeline on tame characters. -/
theorem normL_idem (l : List Char) (hl : ∀ c ∈ l, goodChar c = true) :
    normL (normL l) = normL l := by
  have hmprops : ∀ c ∈ ((nfkdL ((pyStrip l).map pyLowerChar)).filter
      (fun c => !pyCombining c)).filter keepChar,
      stableChar c = true ∧ pyCombining c = false ∧ keepChar c = true := by
    intro c hc
    have hkeep : keepChar c = true := (List.mem_filter.mp hc).2
    have hc1 := (List.mem_filter.mp hc).1
    have hcomb : (!pyCombining c) = true := (List.mem_filter.mp hc1).2
    have hc2 := (List.mem_filter.mp hc1).1
    obtain ⟨c1, hc1mem, hcdec⟩ := mem_nfkdL _ c hc2
    obtain ⟨c0, hc0mem, rfl⟩ := List.mem_map.mp hc1mem
    have hgood := hl c0 (mem_pyStrip l c0 hc0mem)
    rw [goodChar, List.all_eq_true] at hgood
    exact ⟨hgood c hcdec, by simpa using hcomb, hkeep⟩
  set m := ((nfkdL ((pyStrip l).map pyLowerChar)).filter
    (fun c => !pyCombining c)).filter keepChar with hm
  have hws := pyWords_props m
  have hwords : ∀ w ∈ pyWords m, w ≠ [] ∧ ∀ c ∈ w, pyIsSpace c = false :=
    fun w hw => ⟨(hws w hw).1, fun c hc => ((hws w hw).2 c hc).1⟩
  have houtchars : ∀ c ∈ joinSpace (pyWords m),
      stableChar c = true ∧ pyCombining c = false ∧ keepChar c = true := by
    intro c hc
    rcases mem_joinSpace _ c hc with rfl | ⟨w, hw, hcw⟩
    · exact ⟨by decide, by decide, by decide⟩
    · exact hmprops c ((hws w hw).2 c hcw).2
  have hout : normL l = joinSpace (pyWords m) := rfl
  rw [hout]
  show normL (joinSpace (pyWords m)) = joinSpace (pyWords m)
  unfold normL
  rw [pyStrip_eq_self (joinSpace (pyWords m))
    (joinSpace_head_nonspace (pyWords m) hwords)
    (joinSpace_reverse_head_nonspace (pyWords m) hwords)]
  rw [map_eq_self_of pyLowerChar (joinSpace (pyWords m))
    (fun c hc => (stableChar_spec c (houtchars c hc).1).1)]
  rw [nfkdL_eq_self (joinSpace (pyWords m))
    (fun c hc => (stableChar_spec c (houtchars c hc).1).2)]
  rw [List.filter_eq_self.mpr
    (fun c hc => (houtchars c ((List.mem_filter.mp hc).1)).2.2)]
  rw [List.filter_eq_self.mpr
    (fun c hc => by simpa using (houtchars c hc).2.1)]
  rw [pyWords_joinSpace (pyWords m) hwords]

/-- **C9 counterexample.** Normalization is not idempotent on all
strings: `'ℂ'` (U+2102 DOUBLE-STRUCK CAPITAL C) has no lowercase
mapping, so lowercasing fixes it, but its NFKD compatibility
decomposition is the uppercase `'C'`, which a second pass lowercases. -/
theorem C9_counterexample :
    norm (norm "ℂ") ≠ norm "ℂ" ∧ norm "ℂ" = "C" ∧ norm (norm "ℂ") = "c" := by
  refine ⟨by decide, by decide, by decide⟩

/-- **C9 amended.** `norm` is a total function on strings with
`norm "" = ""`, and it is idempotent on every string whose characters
are tame (`goodChar`: every character of the NFKD decomposition of the
lowercased character is itself fixed by lowercasing and NFKD — true of
all ASCII and all accented Latin letters); idempotence fails in general
for compatibility characters that decompose to cased letters, such as
`'ℂ'`. -/
theorem C9_norm_idempotent :
    (∀ s : String, (∀ c ∈ s.data, goodChar c = true) →
      norm (norm s) = norm s) ∧
    norm "" = "" := by
  refine ⟨fun s hs => ?_, by decide⟩
  show String.mk (normL (norm s).data) = String.mk (normL s.data)
  have hdata : (norm s).data = normL s.data := rfl
  rw [hdata]
  exact congrArg String.mk (normL_idem s.data hs)

/-- **C9 witness.** Idempotence at the accented, badly-spaced input
`"  João   Pedro "` (every character is tame), plus the empty-string
case. -/
theorem C9_norm_idempotent_witness :
    norm (norm "  João   Pedro ") = norm "  João   Pedro " ∧ norm "" = "" :=
  ⟨C9_norm_idempotent.1 "  João   Pedro " (by decide), C9_norm_idempotent.2⟩

/-! ## Claim C1: fuzzy token matching and narrowing -/

/-- No token list with a head is contained in the words of the empty
string. -/
theorem all_contains_empty_words (t0 : String) (ts : List String) :
    ((t0 :: ts).all fun t => (splitWords "").contains t) = false := by
  have h : splitWords "" = [] := rfl
  rw [List.all_cons, h]
  simp [List.contains]

/-- Membership in the fuzzy-candidate list, for a non-empty token list:
the code's per-haystack guard (`for h in haystacks if h`) is redundant
because no token can be a word of an empty haystack, so a roster entry
is a fuzzy candidate iff all tokens are whole words of the normalized
full name or all tokens are whole words of the normalized web name. -/
theorem mem_fuzzyCandidates (t0 : String) (ts : List String)
    (roster : List RosterEntry) (r : RosterEntry) :
    r ∈ fuzzyCandidates (t0 :: ts) roster ↔
      r ∈ roster ∧
        (((t0 :: ts).all fun t => (splitWords r.n_full).contains t) = true ∨
         ((t0 :: ts).all fun t => (splitWords r.n_web).contains t) = true) := by
  unfold fuzzyCandidates
  rw [List.mem_filter]
  refine and_congr_right fun _ => ?_
  simp only [List.any_cons, List.any_nil, Bool.or_false, Bool.or_eq_true,
    Bool.and_eq_true, decide_eq_true_eq]
  constructor
  · rintro (⟨_, h⟩ | ⟨_, h⟩)
    · exact Or.inl h
    · exact Or.inr h
  · rintro (h | h)
    · by_cases hf : r.n_full = ""
      · rw [hf, all_contains_empty_words] at h
        exact absurd h (by simp)
      · exact Or.inl ⟨hf, h⟩
    · by_cases hw : r.n_web = ""
      · rw [hw, all_contains_empty_words] at h
        exact absurd h (by simp)
      · exact Or.inr ⟨hw, h⟩

/-- When the override misses and the exact index has no candidate under
the key, resolution is exactly the fuzzy stage. -/
theorem resolve_eq_fuzzy_resolve (overrides : List (String × Int))
    (aliases : List (String × String)) (pick : String)
    (idx : List (String × List Cand)) (roster : List RosterEntry) (key : String)
    (hov : alookup overrides pick = none)
    (hkey : (alookup aliases (norm pick)).getD (norm pick) = key)
    (hexact : (alookup idx key).getD [] = []) :
    resolve_pick_to_element overrides aliases pick idx roster =
      fuzzy_resolve pick key roster := by
  unfold resolve_pick_to_element
  rw [hov]
  dsimp only
  rw [hkey, hexact]

/-- **C1 amended.** For every pick whose (possibly alias-substituted)
normalized key has no exact-index candidates: if the key tokenizes to an
empty token list the resolver returns NotFound; otherwise a roster entry
is a fuzzy candidate iff every token occurs as a whole
whitespace-delimited word of its normalized full name or every token
occurs as a whole word of its normalized short name; zero candidates
yields NotFound, exactly one yields Ok with that entry's id, and with
more than one the resolver narrows to candidates whose normalized full
name contains every token as a whole word — exactly one narrowed
candidate yields Ok, otherwise Ambiguous with suggestions equal to the
narrowed list if non-empty else the full fuzzy list, truncated to the
first 8 entries in roster order.  (For the roster
{Bruno Guimaraes, Bruno Fernandes} the pick `"bruno g"` has no fuzzy
candidate — `"g"` is not a whole word of either name — so it yields
NotFound, not Ok; see the witness.) -/
theorem C1_fuzzy_token_matching (overrides : List (String × Int))
    (aliases : List (String × String)) (pick : String)
    (idx : List (String × List Cand)) (roster : List RosterEntry) (key : String)
    (hov : alookup overrides pick = none)
    (hkey : (alookup aliases (norm pick)).getD (norm pick) = key)
    (hexact : (alookup idx key).getD [] = []) :
    (tokenize key = [] →
      resolve_pick_to_element overrides aliases pick idx roster =
        ⟨"not_found", none, pick, none⟩) ∧
    (∀ t0 : String, ∀ ts : List String, tokenize key = t0 :: ts →
      (∀ r : RosterEntry,
        r ∈ fuzzyCandidates (t0 :: ts) roster ↔
          r ∈ roster ∧
            (((t0 :: ts).all fun t => (splitWords r.n_full).contains t) = true ∨
             ((t0 :: ts).all fun t => (splitWords r.n_web).contains t) = true)) ∧
      (fuzzyCandidates (t0 :: ts) roster = [] →
        resolve_pick_to_element overrides aliases pick idx roster =
          ⟨"not_found", none, pick, none⟩) ∧
      (∀ r : RosterEntry, fuzzyCandidates (t0 :: ts) roster = [r] →
        resolve_pick_to_element overrides aliases pick idx roster =
          ⟨"ok", some r.id, r.display, none⟩) ∧
      (∀ (a b : RosterEntry) (fz : List RosterEntry),
        fuzzyCandidates (t0 :: ts) roster = a :: b :: fz →
        (∀ r : RosterEntry, fullHits (t0 :: ts) (a :: b :: fz) = [r] →
          resolve_pick_to_element overrides aliases pick idx roster =
            ⟨"ok", some r.id, r.display, none⟩) ∧
        (fullHits (t0 :: ts) (a :: b :: fz) = [] →
          resolve_pick_to_element overrides aliases pick idx roster =
            ⟨"ambiguous", none, pick,
             some (((a :: b :: fz).take 8).map (fun r => r.display))⟩) ∧
        (∀ (c d : RosterEntry) (fh : List RosterEntry),
          fullHits (t0 :: ts) (a :: b :: fz) = c :: d :: fh →
          resolve_pick_to_element overrides aliases pick idx roster =
            ⟨"ambiguous", none, pick,
             some (((c :: d :: fh).take 8).map (fun r => r.display))⟩))) := by
  rw [resolve_eq_fuzzy_resolve overrides aliases pick idx roster key hov hkey hexact]
  constructor
  · intro htoks
    unfold fuzzy_resolve
    rw [htoks]
  · intro t0 ts htoks
    refine ⟨mem_fuzzyCandidates t0 ts roster, ?_, ?_, ?_⟩
    · intro hfz
      unfold fuzzy_resolve
      rw [htoks]
      dsimp only
      rw [hfz]
    · intro r hfz
      unfold fuzzy_resolve
      rw [htoks]
      dsimp only
      rw [hfz]
    · intro a b fz hfz
      refine ⟨?_, ?_, ?_⟩
      · intro r hfh
        unfold fuzzy_resolve
        rw [htoks]
        dsimp only
        rw [hfz]
        dsimp only
        rw [hfh]
      · intro hfh
        unfold fuzzy_resolve
        rw [htoks]
        dsimp only
        rw [hfz]
        dsimp only
        rw [hfh]
      · intro c d fh hfh
        unfold fuzzy_resolve
        rw [htoks]
        dsimp only
        rw [hfz]
        dsimp only
        rw [hfh]

/-- **C1 counterexample.** As stated, the claim makes the pick
`"bruno g"` resolve Ok to Bruno Guimaraes on the roster
{Bruno Guimaraes, Bruno Fernandes}.  In the code, with no alias in
play (so that the claim's no-exact-candidate premise holds), the token
`"g"` is not a whole word of any normalized name, so resolution is
NotFound — not Ok; and with the shipped alias table the key becomes
`"bruno guimaraes"`, which *does* have an exact-index candidate, so the
pick never reaches the fuzzy stage at all. -/
theorem C1_counterexample :
    (resolve_pick_to_element [] [] "bruno g" brunoIdx brunoRoster).status ≠ "ok" ∧
    resolve_pick_to_element [] [] "bruno g" brunoIdx brunoRoster =
      ⟨"not_found", none, "bruno g", none⟩ ∧
    alookup ALIASES (norm "bruno g") = some "bruno guimaraes" ∧
    (alookup brunoIdx ((alookup ALIASES (norm "bruno g")).getD
      (norm "bruno g"))).getD [] = [⟨1, "Bruno Guimaraes"⟩] := by
  refine ⟨by decide, by decide, by decide, by decide⟩

/-- **C1 witness.** The amended claim applied to the Bruno roster and
the pick `"bruno g"` with an empty alias table: the key tokenizes to
`["bruno", "g"]`, the fuzzy-candidate list is empty, and the resolver
returns NotFound. -/
theorem C1_fuzzy_token_matching_witness :
    tokenize "bruno g" = ["bruno", "g"] ∧
    fuzzyCandidates ["bruno", "g"] brunoRoster = [] ∧
    resolve_pick_to_element [] [] "bruno g" brunoIdx brunoRoster =
      ⟨"not_found", none, "bruno g", none⟩ :=
  ⟨by decide, by decide,
   (((C1_fuzzy_token_matching [] [] "bruno g" brunoIdx brunoRoster "bruno g"
      (by decide) (by decide) (by decide)).2 "bruno" ["g"] (by decide)).2.1
      (by decide))⟩

/-! ## Claim C7: goal counting since the cutoff -/

/-- The entries the claim says are counted: those with a present,
non-empty kickoff timestamp that parses to an instant at or after the
cutoff (inclusive boundary). -/
def countedEntry (cutoff : Int) (h : HistEntry) : Bool :=
  match h.kickoff_time with
  | none => false
  | some kt =>
    kt ≠ "" &&
      match parse_iso_z kt with
      | none => false
      | some kick => cutoff ≤ kick

/-- **C7.** For every player history whose present non-empty kickoff
timestamps parse, the goal count is the sum of the goals-scored values
of exactly those entries whose kickoff is at or after the cutoff
(inclusive); entries with an absent kickoff are skipped and an absent
goals-scored value counts as zero — no error is raised (the result is
`some` of the sum). -/
theorem C7_goals_since_cutoff (cutoff : Int) (history : List HistEntry)
    (hparse : ∀ h ∈ history,
      (h.kickoff_time.all fun kt => kt == "" || (parse_iso_z kt).isSome) = true) :
    goals_since_cutoff cutoff history =
      some (((history.filter (countedEntry cutoff)).map
        (fun h => h.goals_scored.getD 0)).sum) := by
  induction history with
  | nil => simp [goals_since_cutoff]
  | cons h rest ih =>
    have hrest : ∀ h ∈ rest,
        (h.kickoff_time.all fun kt => kt == "" || (parse_iso_z kt).isSome) = true :=
      fun e he => hparse e (List.mem_cons_of_mem h he)
    have hh := hparse h (List.mem_cons_self h rest)
    rcases hkt : h.kickoff_time with _ | kt
    · rw [goals_since_cutoff, hkt]
      rw [List.filter_cons, ih hrest]
      have : countedEntry cutoff h = false := by
        unfold countedEntry; rw [hkt]
      simp [this]
    · rw [goals_since_cutoff, hkt]
      dsimp only
      by_cases hempty : kt = ""
      · rw [if_pos hempty, ih hrest]
        have : countedEntry cutoff h = false := by
          unfold countedEntry; rw [hkt]; simp [hempty]
        rw [List.filter_cons]
        simp [this]
      · rw [if_neg hempty]
        rw [hkt, Option.all_some] at hh
        have hkbeq : (kt == "") = false := by
          exact beq_eq_false_iff_ne.mpr hempty
        rw [hkbeq, Bool.false_or] at hh
        rcases hsome : parse_iso_z kt with _ | kick
        · rw [hsome] at hh; simp at hh
        · dsimp only
          rw [ih hrest]
          have hce : countedEntry cutoff h = decide (cutoff ≤ kick) := by
            unfold countedEntry
            rw [hkt]
            dsimp only
            rw [hsome]
            simp [hempty]
          rw [List.filter_cons, hce]
          by_cases hck : cutoff ≤ kick
          · simp [hck]
          · simp [hck]

/-- **C7 witness.** The specification's scenario: with cutoff
`2025-12-25T00:00:00Z`, a history entry kicking off at
`2025-12-24T23:00:00Z` with 2 goals and one at `2025-12-26T12:00:00Z`
with 1 goal yield a count of `some 1`: only the second entry is
counted. -/
theorem C7_goals_since_cutoff_witness :
    parse_iso_z "2025-12-25T00:00:00Z" = some 1766620800 ∧
    goals_since_cutoff 1766620800
        [⟨some "2025-12-24T23:00:00Z", some 2⟩,
         ⟨some "2025-12-26T12:00:00Z", some 1⟩] =
      some ((([(⟨some "2025-12-24T23:00:00Z", some 2⟩ : HistEntry),
               ⟨some "2025-12-26T12:00:00Z", some 1⟩].filter
          (countedEntry 1766620800)).map (fun h => h.goals_scored.getD 0)).sum) ∧
    ((([(⟨some "2025-12-24T23:00:00Z", some 2⟩ : HistEntry),
        ⟨some "2025-12-26T12:00:00Z", some 1⟩].filter
        (countedEntry 1766620800)).map (fun h => h.goals_scored.getD 0)).sum) = 1 :=
  ⟨by decide,
   C7_goals_since_cutoff 1766620800
     [⟨some "2025-12-24T23:00:00Z", some 2⟩, ⟨some "2025-12-26T12:00:00Z", some 1⟩]
     (by decide),
   by decide⟩

/-! ## Claim C10: the shape of every Ambiguous resolution -/

/-- The fuzzy stage only returns Ambiguous with a `none` id and between
2 and 8 suggestions. -/
theorem fuzzy_resolve_ambiguous_shape (pick key : String)
    (roster : List RosterEntry)
    (h : (fuzzy_resolve pick key roster).status = "ambiguous") :
    (fuzzy_resolve pick key roster).id = none ∧
    (fuzzy_resolve pick key roster).suggestions ≠ none ∧
    2 ≤ (((fuzzy_resolve pick key roster).suggestions).getD []).length ∧
    (((fuzzy_resolve pick key roster).suggestions).getD []).length ≤ 8 := by
  revert h
  unfold fuzzy_resolve
  dsimp only
  split
  · intro h; simp at h
  · split
    · intro h; simp at h
    · intro h; simp at h
    · split
      · intro h; simp at h
      · rename_i a b t hfz fh hfh
        intro _
        refine ⟨rfl, by simp, ?_, ?_⟩ <;>
          · rw [hfz]; simp [List.length_take]
      · rename_i c d t hfh
        intro _
        refine ⟨rfl, by simp, ?_, ?_⟩ <;>
          · rw [hfh]; simp [List.length_take]

/-- **C10.** Every Ambiguous resolution returned by the resolver carries
a `none` id and a suggestions list with at least 2 and at most 8
entries; the resolver never returns Ambiguous with an empty or singleton
suggestions list. -/
theorem C10_ambiguous_shape (overrides : List (String × Int))
    (aliases : List (String × String)) (pick : String)
    (idx : List (String × List Cand)) (roster : List RosterEntry)
    (h : (resolve_pick_to_element overrides aliases pick idx roster).status =
      "ambiguous") :
    (resolve_pick_to_element overrides aliases pick idx roster).id = none ∧
    (resolve_pick_to_element overrides aliases pick idx roster).suggestions ≠ none ∧
    2 ≤ (((resolve_pick_to_element overrides aliases pick idx roster).suggestions).getD
      []).length ∧
    (((resolve_pick_to_element overrides aliases pick idx roster).suggestions).getD
      []).length ≤ 8 := by
  revert h
  unfold resolve_pick_to_element
  dsimp only
  split
  · intro h; simp at h
  · split
    · intro h; simp at h
    · rename_i a b t hc
      intro _
      refine ⟨rfl, by simp, ?_, ?_⟩ <;>
        · rw [hc]; simp [List.length_take]
    · intro h
      exact fuzzy_resolve_ambiguous_shape _ _ _ h

/-- **C10 witness.** The pick `"Beta"` on the fixture index is
Ambiguous; the theorem yields a `none` id and a suggestion count between
2 and 8. -/
theorem C10_ambiguous_shape_witness :
    (resolve_pick_to_element [] [] "Beta" idxEx []).id = none ∧
    (resolve_pick_to_element [] [] "Beta" idxEx []).suggestions ≠ none ∧
    2 ≤ (((resolve_pick_to_element [] [] "Beta" idxEx []).suggestions).getD
      []).length ∧
    (((resolve_pick_to_element [] [] "Beta" idxEx []).suggestions).getD
      []).length ≤ 8 :=
  C10_ambiguous_shape [] [] "Beta" idxEx [] (by decide)

end Scoreboard
